import Mathlib

/-!
# PolicyGenius X — verification of the RAG pipeline core

Shallow embedding of the document-ingestion / chunking / caching / retrieval /
answer-synthesis core of the repository (source of authority: `src/main.py`;
`src/api/index.py` contains a byte-identical `chunk_text`).

Modelling conventions:
* Python strings are modelled as `List Char`; `str.strip`, `str.split('\n\n')`,
  `str.split()` and `len` are embedded character by character below.
* External collaborators (network fetch, PDF text extraction, the embedding
  model, the FAISS index, the generative backend) are oracles packed into an
  `Env` record, exactly at the call boundaries the Python code uses them.
* Floating-point similarity scores never influence control flow in the claims
  under study; their payload is modelled by `Int`.
-/

namespace PolicyGenius

/-- Python whitespace (`str.strip` / `str.split` default), ASCII fragment:
space, tab, newline, carriage return, vertical tab, form feed. -/
def pyIsSpace (c : Char) : Bool :=
  c = ' ' || c = '\t' || c = '\n' || c = '\r' || c = '\x0b' || c = '\x0c'

/-- Python `s.strip()`: drop leading and trailing whitespace. -/
def strip (s : List Char) : List Char :=
  (s.dropWhile pyIsSpace).rdropWhile pyIsSpace

/-- Python `text.split('\n\n')`: split on each non-overlapping, leftmost
occurrence of a double newline.  `acc` is the current segment, reversed. -/
def splitParAux (acc : List Char) : List Char → List (List Char)
  | '\n' :: '\n' :: rest => acc.reverse :: splitParAux [] rest
  | c :: rest => splitParAux (c :: acc) rest
  | [] => [acc.reverse]

/-- `[p.strip() for p in text.split('\n\n') if p.strip()]` (main.py line 117). -/
def paragraphs (text : List Char) : List (List Char) :=
  ((splitParAux [] text).map strip).filter (fun p => !p.isEmpty)

/-- Python `s.split()`: split on whitespace runs, dropping empty words. -/
def strSplitWsAux (acc : List Char) : List Char → List (List Char)
  | [] => if acc.isEmpty then [] else [acc.reverse]
  | c :: rest =>
    if pyIsSpace c then
      if acc.isEmpty then strSplitWsAux [] rest else acc.reverse :: strSplitWsAux [] rest
    else strSplitWsAux (c :: acc) rest

/-- Python `current_chunk.split()` (main.py line 134). -/
def strSplitWs (s : List Char) : List (List Char) := strSplitWsAux [] s

/-- Python `words[-k:]` for a natural `k`: the empty slice bound `-0` denotes
the whole list (`words[0:]`), otherwise the trailing `k` elements. -/
def pySliceLast (ws : List (List Char)) (k : Nat) : List (List Char) :=
  if k = 0 then ws else ws.drop (ws.length - k)

/-- One chunk produced by `chunk_text` — the dict
`{"id": chunk_id, "text": ..., "source": f"chunk_{chunk_id}"}`. -/
structure Chunk where
  id : Nat
  text : List Char
  source : List Char
deriving DecidableEq, Repr

/-- `f"chunk_{chunk_id}"`. -/
def mkSource (n : Nat) : List Char := "chunk_".toList ++ (Nat.repr n).toList

/-- Loop state of `chunk_text`: accumulated `chunks`, the running buffer
`current_chunk`, and the next `chunk_id`. -/
structure ChunkState where
  chunks : List Chunk
  current : List Char
  nextId : Nat
deriving DecidableEq, Repr

/-- One iteration of the `for paragraph in paragraphs` loop of `chunk_text`
(main.py lines 123-138).  When appending the paragraph would exceed
`chunk_size` and the buffer is non-empty, the buffer is flushed and the new
buffer is seeded with `" ".join(words[-overlap//10:])` (guarded by
`len(words) > overlap//10`). -/
def chunkStep (chunk_size overlap : Nat) (st : ChunkState) (paragraph : List Char) : ChunkState :=
  if chunk_size < st.current.length + paragraph.length ∧ st.current ≠ [] then
    let flushed : Chunk := ⟨st.nextId, strip st.current, mkSource st.nextId⟩
    let ws := strSplitWs st.current
    let overlap_text :=
      if overlap / 10 < ws.length then List.intercalate [' '] (pySliceLast ws (overlap / 10))
      else []
    let newCurrent := if overlap_text ≠ [] then overlap_text ++ [' '] ++ paragraph else paragraph
    ⟨st.chunks ++ [flushed], newCurrent, st.nextId + 1⟩
  else
    ⟨st.chunks,
      if st.current ≠ [] then st.current ++ ['\n', '\n'] ++ paragraph else paragraph,
      st.nextId⟩

/-- `chunk_text(text, chunk_size, overlap)` (main.py lines 114-148): fold the
paragraph loop, then flush the final non-empty buffer. -/
def chunk_text (text : List Char) (chunk_size overlap : Nat) : List Chunk :=
  let st := (paragraphs text).foldl (chunkStep chunk_size overlap) ⟨[], [], 0⟩
  if st.current ≠ [] then
    st.chunks ++ [⟨st.nextId, strip st.current, mkSource st.nextId⟩]
  else st.chunks

/-- The overlap seed as the specification words it: the trailing `overlap/10`
words of the just-flushed buffer, empty when the buffer does not have more
than `overlap/10` words. -/
def specSeed (buffer : List Char) (k : Nat) : List Char :=
  if k < (strSplitWs buffer).length then
    List.intercalate [' '] ((strSplitWs buffer).drop ((strSplitWs buffer).length - k))
  else []

example : paragraphs "ab\n\n  \n\ncd".toList = [['a','b'], ['c','d']] := by decide

example : chunk_text "ab\n\ncd".toList 2 5 =
    [⟨0, ['a','b'], mkSource 0⟩, ⟨1, ['a','b',' ','c','d'], mkSource 1⟩] := by decide

example : chunk_text "".toList 1000 200 = [] := by decide

example : strSplitWs "  aa bb  cc ".toList = [['a','a'], ['b','b'], ['c','c']] := by decide

/-! ## Python dicts (chunk records crossing the retrieval/serialization path) -/

/-- A Python value stored in a chunk dict: an int (`id`), a string
(`text`, `source`), or a numeric score (floats modelled by `Int`). -/
inductive Val where
  | int (n : Int)
  | str (s : List Char)
deriving DecidableEq, Repr

/-- A Python dict, as an insertion-ordered association list. -/
abbrev Dict := List (String × Val)

/-- `d[k]` as an `Option`. -/
def dlookup (d : Dict) (k : String) : Option Val :=
  (d.find? (fun kv => kv.1 = k)).map (fun kv => kv.2)

/-- `d[k] = v`: overwrite in place when the key exists, else append
(Python dicts preserve insertion order). -/
def dset (d : Dict) (k : String) (v : Val) : Dict :=
  if d.any (fun kv => kv.1 = k) then
    d.map (fun kv => if kv.1 = k then (k, v) else kv)
  else d ++ [(k, v)]

/-- `d.pop(k, default)`, the remaining-dict part. -/
def derase (d : Dict) (k : String) : Dict := d.filter (fun kv => kv.1 ≠ k)

/-- `{"id": c.id, "text": c.text, "source": c.source}` as built by `chunk_text`. -/
def chunkToDict (c : Chunk) : Dict :=
  [("id", Val.int c.id), ("text", Val.str c.text), ("source", Val.str c.source)]

/-- Python `str(...)` on a dict value (ids are ints; `str` on a string is
itself). -/
def valStr : Val → List Char
  | .int (.ofNat n) => (Nat.repr n).toList
  | .int (.negSucc n) => '-' :: (Nat.repr (n + 1)).toList
  | .str s => s

/-! ## Deterministic fallback responder (`generate_intelligent_answer`) -/

/-- Leftmost-substring test, Python's `needle in haystack`. -/
def containsSub (needle : List Char) : List Char → Bool
  | [] => needle.isEmpty
  | c :: rest => needle.isPrefixOf (c :: rest) || containsSub needle rest

/-- `any(word in s for word in ws)`. -/
def containsAny (ws : List (List Char)) (s : List Char) : Bool :=
  ws.any (fun w => containsSub w s)

/-- `', '.join([str(chunk['id']) for chunk in relevant_chunks])` — every
retrieved chunk dict carries the `"id"` key it was created with; a missing key
(impossible on the retrieval path) is rendered as `0`. -/
def citeIds (relevant_chunks : List Dict) : List Char :=
  List.intercalate ", ".toList
    (relevant_chunks.map (fun d => valStr ((dlookup d "id").getD (Val.int 0))))

/-- A clause-citing response: fixed prefix, the comma-separated retrieved
chunk ids, fixed suffix (the shape of every f-string the fallback returns). -/
def citedMsg (pre : String) (cks : List Dict) (post : String) : List Char :=
  pre.toList ++ citeIds cks ++ post.toList

/-- Python `w in s` for a keyword literal `w`. -/
def pyIn (w : String) (s : List Char) : Bool := containsSub w.toList s

/-- `any(word in s for word in ws)` for keyword literals. -/
def pyInAny (ws : List String) (s : List Char) : Bool := ws.any (fun w => pyIn w s)

/-- ASCII approximation of Python `str.lower()` (all keywords are ASCII). -/
def pyLower (s : List Char) : List Char := s.map Char.toLower

/-- `generate_intelligent_answer(question, relevant_chunks, context)`
(main.py lines 223-296), transcribed branch by branch. -/
def generate_intelligent_answer (question : List Char) (relevant_chunks : List Dict)
    (context : List Char) : List Char :=
  if pyInAny ["coverage", "covered", "treatment", "medical"]
      (pyLower question) then
    if pyIn "hospitalization" (pyLower context) ||
        pyIn "hospital" (pyLower context) then
      citedMsg "Based on the policy clauses, hospitalization coverage is mentioned. Please refer to clauses " relevant_chunks " for specific coverage details and conditions."
    else if pyIn "treatment" (pyLower context) ||
        pyIn "medical" (pyLower context) then
      citedMsg "Medical treatments are addressed in the policy. Specific coverage details can be found in clauses " relevant_chunks "."
    else
      citedMsg "Coverage information is outlined in clauses " relevant_chunks ". Review these sections for detailed coverage terms."
  else if pyInAny ["exclusion", "excluded", "not covered"]
      (pyLower question) then
    if pyIn "exclusion" (pyLower context) ||
        pyIn "excluded" (pyLower context) ||
        pyIn "not covered" (pyLower context) then
      citedMsg "Yes, the policy contains exclusions. Specific exclusions are detailed in clauses " relevant_chunks "."
    else
      citedMsg "Exclusion details can be found in clauses " relevant_chunks ". Please review for complete exclusion terms."
  else if pyInAny ["waiting period", "wait", "pre-existing"]
      (pyLower question) then
    if pyIn "waiting" (pyLower context) ||
        pyIn "period" (pyLower context) then
      citedMsg "Waiting periods are specified in the policy. Refer to clauses " relevant_chunks " for specific waiting period terms."
    else if pyIn "pre-existing" (pyLower context) then
      citedMsg "Pre-existing conditions are addressed in clauses " relevant_chunks ". Check these sections for coverage terms and waiting periods."
    else
      citedMsg "Waiting period information is available in clauses " relevant_chunks "."
  else if pyInAny ["sum insured", "coverage amount", "benefit",
      "limit"] (pyLower question) then
    if pyInAny ["sum", "amount", "limit", "benefit"]
        (pyLower context) then
      citedMsg "Sum insured and benefit amounts are specified in the policy. Detailed information is in clauses " relevant_chunks "."
    else
      citedMsg "Coverage amounts and limits are detailed in clauses " relevant_chunks "."
  else if pyInAny ["claim", "settlement", "process"]
      (pyLower question) then
    if pyIn "claim" (pyLower context) then
      citedMsg "Claim procedures are outlined in the policy. Specific claim process details are in clauses " relevant_chunks "."
    else
      citedMsg "Claims information can be found in clauses " relevant_chunks "."
  else if pyInAny ["tenure", "duration", "period", "term"]
      (pyLower question) then
    if pyInAny ["year", "month", "term", "period"]
        (pyLower context) then
      citedMsg "Policy term and duration details are specified in clauses " relevant_chunks "."
    else
      citedMsg "Policy duration information is available in clauses " relevant_chunks "."
  else if pyInAny ["age", "eligibility", "entry"] (pyLower question) then
    if pyIn "age" (pyLower context) then
      citedMsg "Age-related eligibility criteria are mentioned in clauses " relevant_chunks "."
    else
      citedMsg "Eligibility information can be found in clauses " relevant_chunks "."
  else if pyInAny ["premium", "payment", "grace"] (pyLower question) then
    if pyInAny ["premium", "payment", "grace"] (pyLower context) then
      citedMsg "Premium and payment details, including grace periods, are specified in clauses " relevant_chunks "."
    else
      citedMsg "Payment terms are outlined in clauses " relevant_chunks "."
  else if pyInAny ["maternity", "pregnancy", "childbirth"]
      (pyLower question) then
    if pyInAny ["maternity", "pregnancy", "child"] (pyLower context) then
      citedMsg "Maternity benefits are addressed in the policy. Details are in clauses " relevant_chunks "."
    else
      citedMsg "Maternity coverage information can be found in clauses " relevant_chunks "."
  else if pyInAny ["cosmetic", "surgery", "plastic"] (pyLower question) then
    if pyInAny ["cosmetic", "plastic", "surgery"] (pyLower context) then
      citedMsg "Cosmetic surgery coverage is specifically mentioned in clauses " relevant_chunks "."
    else
      citedMsg "Surgery coverage details, including cosmetic procedures, are in clauses " relevant_chunks "."
  else
    citedMsg "Based on the available policy clauses " relevant_chunks ", this information is covered in the policy document. Please review these specific sections for detailed terms and conditions."

example :
    generate_intelligent_answer "Is surgery covered?".toList
      [chunkToDict ⟨3, ['x'], mkSource 3⟩, chunkToDict ⟨7, ['y'], mkSource 7⟩] ['z'] =
    ("Coverage information is outlined in clauses 3, 7. "
      ++ "Review these sections for detailed coverage terms.").toList := by decide

/-! ## Query orchestrator (`process_insurance_query`, main.py lines 311-422)

Chunk dicts are treated as values here: `retrieve_relevant_chunks` works on
`chunks[idx].copy()`, so per-question annotation never writes through the
cached aliases — that frame property is proved separately on an explicit heap
model below (claim about cache-hit immutability). -/

/-- An `HTTPException`: status code and detail message. -/
structure HErr where
  status : Nat
  detail : List Char
deriving DecidableEq, Repr

/-- Pipeline events, used to observe which ingestion steps execute and when
the answer synthesizer (`answer_question`) is invoked. -/
inductive Ev where
  | download
  | extracted
  | chunked
  | embedded
  | indexed
  | synth (question : List Char)
deriving DecidableEq, Repr

/-- The cached record `{"chunks": processed_chunks, "text": text}`. -/
structure DocEntry where
  chunks : List Dict
  text : List Char
deriving DecidableEq, Repr

/-- The two module-level caches, `document_cache` and `vector_store_cache`
(insertion-ordered dicts keyed by the md5 hex of the URL; FAISS indexes are
opaque tokens `Nat`). -/
structure SysState where
  document_cache : List (String × DocEntry)
  vector_store_cache : List (String × Nat)
deriving DecidableEq, Repr

/-- Python dict lookup on a cache. -/
def alookup {α : Type} (m : List (String × α)) (k : String) : Option α :=
  (m.find? (fun kv => kv.1 = k)).map (fun kv => kv.2)

/-- External collaborators, at exactly the boundaries `main.py` calls them:
`hashlib.md5(...).hexdigest()`, `download_pdf`, `extract_text_from_pdf`,
`get_embeddings`, FAISS index construction (`create_vector_store`) and search,
and `answer_question` (Gemini or the deterministic fallback). `search idx q k`
returns the top-`k` rows as (position-or-`-1`, score); `-1` is `none`. -/
structure Env where
  md5 : String → String
  download : String → Except HErr (List Char)
  extract : List Char → Except HErr (List Char)
  embed : List (List Char) → Except HErr (List (List Int))
  buildIndex : List (List Int) → Nat
  search : Nat → List Char → Nat → List (Option Nat × Int)
  answerFn : List Char → List Dict → List Char

/-- `retrieve_relevant_chunks` body (main.py lines 178-185): for each valid
row, copy the cached chunk dict and annotate it with `similarity_score`.
`none` models the `IndexError` a position past `len(chunks)` would raise. -/
def retrieveAux (chunks acc : List Dict) : List (Option Nat × Int) → Option (List Dict)
  | [] => some acc
  | row :: rest =>
    match row.1 with
    | none => retrieveAux chunks acc rest
    | some pos =>
      match chunks.get? pos with
      | none => none
      | some d => retrieveAux chunks (acc ++ [dset d "similarity_score" (Val.int row.2)]) rest

def retrieve_relevant_chunks (rows : List (Option Nat × Int)) (chunks : List Dict) :
    Option (List Dict) :=
  retrieveAux chunks [] rows

/-- Serialization cleanup (main.py lines 379-385):
`chunk["score"] = chunk.pop("similarity_score", 0.0)`; the numpy-scalar
unwrap loop is the identity in this model (no wrapper types exist here). -/
def cleanupDict (d : Dict) : Dict :=
  dset (derase d "similarity_score") "score" ((dlookup d "similarity_score").getD (Val.int 0))

/-- The fixed no-result answer (main.py line 375). -/
def noRelMsg : List Char :=
  "No relevant information found in the policy document for this question.".toList

/-- Per-question result: the appended answer and this question's
contribution to `all_source_chunks`. -/
structure QResult where
  answer : List Char
  src : List Dict
deriving DecidableEq, Repr

/-- One iteration of the `for question in request.questions` loop
(main.py lines 368-391). -/
def processQuestion (env : Env) (idx : Nat) (chunks : List Dict) (q : List Char) :
    Except HErr QResult × List Ev :=
  match retrieve_relevant_chunks (env.search idx q 5) chunks with
  | none => (.error ⟨500, "Internal server error: list index out of range".toList⟩, [])
  | some [] => (.ok ⟨noRelMsg, []⟩, [])
  | some (d :: rel) =>
    let cleaned := (d :: rel).map cleanupDict
    (.ok ⟨env.answerFn q cleaned, cleaned⟩, [Ev.synth q])

/-- The whole question loop: answers accumulate in question order,
`all_source_chunks` is extended flat, an exception aborts the batch. -/
def runQuestions (env : Env) (idx : Nat) (chunks : List Dict) :
    List (List Char) → Except HErr (List (List Char) × List Dict) × List Ev
  | [] => (.ok ([], []), [])
  | q :: rest =>
    match processQuestion env idx chunks q with
    | (.error e, ev) => (.error e, ev)
    | (.ok r, ev) =>
      match runQuestions env idx chunks rest with
      | (.error e, ev') => (.error e, ev ++ ev')
      | (.ok (as, srcs), ev') => (.ok (r.answer :: as, r.src ++ srcs), ev ++ ev')

/-- The `if doc_hash not in document_cache` block (main.py lines 325-357):
download, extract, reject empty text, chunk, embed, build and cache the
vector store. -/
def ingestIfNeeded (env : Env) (st : SysState) (h url : String) :
    Except HErr Unit × SysState × List Ev :=
  match alookup st.document_cache h with
  | some _ => (.ok (), st, [])
  | none =>
    match env.download url with
    | .error e => (.error e, st, [.download])
    | .ok bs =>
      match env.extract bs with
      | .error e => (.error e, st, [.download, .extracted])
      | .ok text =>
        if strip text = [] then
          (.error ⟨400, "No text found in PDF".toList⟩, st, [.download, .extracted])
        else
          let cks := chunk_text text 1000 200
          if cks = [] then
            (.error ⟨400, "No valid chunks created from document".toList⟩, st,
              [.download, .extracted, .chunked])
          else
            match env.embed (cks.map Chunk.text) with
            | .error e => (.error e, st, [.download, .extracted, .chunked, .embedded])
            | .ok vecs =>
              let idx := env.buildIndex vecs
              let dicts := cks.map chunkToDict
              (.ok (),
                ⟨st.document_cache ++ [(h, ⟨dicts, text⟩)],
                 st.vector_store_cache ++ [(h, idx)]⟩,
                [.download, .extracted, .chunked, .embedded, .indexed])

/-- The response body (the wall-clock `processing_time` field is not
modelled). -/
structure Response where
  answers : List (List Char)
  source_chunks : List Dict
deriving DecidableEq, Repr

/-- `process_insurance_query` (main.py lines 311-407): resolve the document
through the cache, then run the question loop.  The impossible
`KeyError` branch (entry present in one cache but not the other) maps to the
generic 500 handler, as any unexpected exception does. -/
def process_insurance_query (env : Env) (st : SysState) (url : String)
    (qs : List (List Char)) : Except HErr Response × SysState × List Ev :=
  let h := env.md5 url
  match ingestIfNeeded env st h url with
  | (.error e, st', ev) => (.error e, st', ev)
  | (.ok _, st', ev) =>
    match alookup st'.document_cache h, alookup st'.vector_store_cache h with
    | some entry, some idx =>
      (match runQuestions env idx entry.chunks qs with
       | (.error e, ev') => (.error e, st', ev ++ ev')
       | (.ok (as, srcs), ev') => (.ok ⟨as, srcs⟩, st', ev ++ ev'))
    | _, _ => (.error ⟨500, "Internal server error: KeyError".toList⟩, st', ev)

/-- `GET /cache/stats` (main.py lines 409-415). -/
def cache_stats (st : SysState) : Nat × Nat :=
  (st.document_cache.length, st.vector_store_cache.length)

/-- `DELETE /cache/clear` (main.py lines 417-422). -/
def clear_cache (_st : SysState) : SysState := ⟨[], []⟩

/-! ## Heap model of the per-question dict handling (aliasing made explicit)

The cached chunk dicts are shared by reference between `document_cache` and
every request.  To state that question processing never mutates the cached
originals, the dicts live in an explicit heap (`List Dict`; an address is an
index, allocation appends).  The cache entry holds the addresses `addrs` of
its chunk dicts; `chunks[idx].copy()` allocates a fresh address; the
`similarity_score` annotation and the serialization cleanup write only
through the fresh addresses. -/

abbrev Heap := List Dict

/-- Read a heap cell (cells are only ever read at allocated addresses). -/
def hget (h : Heap) (a : Nat) : Dict := h.getD a []

/-- `retrieve_relevant_chunks` with the copies allocated on the heap: returns
the updated heap and the addresses of the per-request copies. -/
def retrieveHeapAux (addrs : List Nat) (acc : Heap × List Nat) :
    List (Option Nat × Int) → Option (Heap × List Nat)
  | [] => some acc
  | row :: rest =>
    match row.1 with
    | none => retrieveHeapAux addrs acc rest
    | some pos =>
      match addrs.get? pos with
      | none => none
      | some a =>
        -- chunk = chunks[idx].copy(); chunk["similarity_score"] = float(score):
        -- the copy is allocated at the end of the heap
        retrieveHeapAux addrs
          (acc.1 ++ [dset (hget acc.1 a) "similarity_score" (Val.int row.2)],
           acc.2 ++ [acc.1.length]) rest

def retrieveHeap (rows : List (Option Nat × Int)) (addrs : List Nat) (h : Heap) :
    Option (Heap × List Nat) :=
  retrieveHeapAux addrs (h, []) rows

/-- The serialization cleanup loop, writing through the copy addresses. -/
def cleanupHeap (h : Heap) (raddrs : List Nat) : Heap :=
  raddrs.foldl (fun h a => h.set a (cleanupDict (hget h a))) h

/-- Heap effect of one iteration of the question loop on a cache hit. -/
def questionHeap (env : Env) (idx : Nat) (addrs : List Nat) (h : Heap) (q : List Char) :
    Option Heap :=
  match retrieveHeap (env.search idx q 5) addrs h with
  | none => none
  | some (h', raddrs) => if raddrs = [] then some h' else some (cleanupHeap h' raddrs)

/-- Heap effect of the whole question loop. -/
def questionsHeap (env : Env) (idx : Nat) (addrs : List Nat) :
    Heap → List (List Char) → Option Heap
  | h, [] => some h
  | h, q :: rest =>
    match questionHeap env idx addrs h q with
    | none => none
    | some h' => questionsHeap env idx addrs h' rest

/-! ## Library lemmas about `strip` -/

theorem rdropWhile_append (p : Char → Bool) (a b : List Char) :
    List.rdropWhile p (a ++ b) =
      if (List.rdropWhile p b).isEmpty then List.rdropWhile p a else a ++ List.rdropWhile p b := by
  by_cases h : (List.rdropWhile p b).isEmpty
  · rw [if_pos h]
    have hb : List.dropWhile p b.reverse = [] := by
      have h' := List.isEmpty_iff.mp h
      unfold List.rdropWhile at h'
      simpa using h'
    unfold List.rdropWhile
    rw [List.reverse_append, List.dropWhile_append, hb]
    simp
  · rw [if_neg h]
    have hb : ¬(List.dropWhile p b.reverse).isEmpty = true := by
      intro hh
      apply h
      unfold List.rdropWhile
      rw [List.isEmpty_iff.mp hh]
      simp
    unfold List.rdropWhile
    rw [List.reverse_append, List.dropWhile_append, if_neg hb]
    simp [List.reverse_append]

theorem mem_dropWhile_of_not {c : Char} {p : Char → Bool} :
    ∀ {l : List Char}, c ∈ l → ¬p c → c ∈ l.dropWhile p
  | [], hc, _ => by cases hc
  | a :: t, hc, hn => by
    by_cases ha : p a
    · rw [List.dropWhile_cons_of_pos ha]
      rcases List.mem_cons.mp hc with rfl | hct
      · exact absurd ha hn
      · exact mem_dropWhile_of_not hct hn
    · rw [List.dropWhile_cons_of_neg ha]
      exact hc

theorem strip_ne_nil {c : Char} {s : List Char} (hc : c ∈ s) (hn : ¬pyIsSpace c) :
    strip s ≠ [] := by
  intro h
  unfold strip at h
  rw [List.rdropWhile_eq_nil_iff] at h
  exact hn (h c (mem_dropWhile_of_not hc hn))

theorem strip_eq_self_parts {q : List Char} (h : strip q = q) :
    List.dropWhile pyIsSpace q = q ∧ List.rdropWhile pyIsSpace q = q := by
  have hsuf : List.dropWhile pyIsSpace q <:+ q := List.dropWhile_suffix _
  have hlen1 : (List.dropWhile pyIsSpace q).length ≤ q.length := hsuf.length_le
  have hlen2 : q.length ≤ (List.dropWhile pyIsSpace q).length := by
    conv_lhs => rw [← h]
    exact (List.rdropWhile_prefix _ _).length_le
  have hdrop : List.dropWhile pyIsSpace q = q :=
    hsuf.eq_of_length (Nat.le_antisymm hlen1 hlen2)
  refine ⟨hdrop, ?_⟩
  have := h
  unfold strip at this
  rwa [hdrop] at this

theorem strip_idem (s : List Char) : strip (strip s) = strip s := by
  have hpre : strip s <+: List.dropWhile pyIsSpace s := List.rdropWhile_prefix _ _
  have hdrop : List.dropWhile pyIsSpace (strip s) = strip s := by
    rw [List.dropWhile_eq_self_iff]
    intro hl
    have hlt : 0 < (List.dropWhile pyIsSpace s).length :=
      Nat.lt_of_lt_of_le hl hpre.length_le
    have hp := List.dropWhile_get_zero_not pyIsSpace s hlt
    have heq : (List.dropWhile pyIsSpace s).get ⟨0, hlt⟩ = (strip s).get ⟨0, hl⟩ := by
      simp only [List.get_eq_getElem]
      exact (hpre.getElem hl).symm
    rwa [heq] at hp
  show List.rdropWhile pyIsSpace (List.dropWhile pyIsSpace (strip s)) = strip s
  rw [hdrop]
  have hs : strip s = List.rdropWhile pyIsSpace (List.dropWhile pyIsSpace s) := rfl
  rw [hs]
  exact List.rdropWhile_idempotent pyIsSpace (List.dropWhile pyIsSpace s)

theorem head_not_space {q : List Char} (hq : strip q = q) (hne : q ≠ []) :
    ∃ c t, q = c :: t ∧ ¬pyIsSpace c := by
  obtain ⟨c, t, rfl⟩ := List.exists_cons_of_ne_nil hne
  refine ⟨c, t, rfl, ?_⟩
  have hdrop := (strip_eq_self_parts hq).1
  intro hc
  rw [List.dropWhile_cons_of_pos hc] at hdrop
  have hle := (List.dropWhile_suffix (l := t) pyIsSpace).length_le
  rw [hdrop] at hle
  simp only [List.length_cons] at hle
  omega

theorem infix_strip {q s : List Char} (hq : strip q = q) (hne : q ≠ [])
    (hin : q <:+: s) : q <:+: strip s := by
  obtain ⟨u, v, rfl⟩ := hin
  obtain ⟨c, t, hct, hc⟩ := head_not_space hq hne
  have hqv : List.dropWhile pyIsSpace (q ++ v) = q ++ v := by
    rw [hct, List.cons_append, List.dropWhile_cons_of_neg hc]
  have hstep : List.dropWhile pyIsSpace (u ++ q ++ v) =
      List.dropWhile pyIsSpace u ++ q ++ v := by
    rw [List.append_assoc, List.dropWhile_append]
    split
    · next h => simp [hqv, List.isEmpty_iff.mp h]
    · next h => rw [List.append_assoc]
  have hrq : List.rdropWhile pyIsSpace q = q := (strip_eq_self_parts hq).2
  unfold strip
  rw [hstep, List.append_assoc, rdropWhile_append]
  split
  · next hv =>
    exfalso
    rw [List.isEmpty_iff, List.rdropWhile_eq_nil_iff] at hv
    exact hc (hv c (by rw [hct]; exact List.mem_append_left _ (List.mem_cons_self c t)))
  · next hv =>
    rw [rdropWhile_append]
    split
    · next hv2 =>
      rw [hrq]
      exact ⟨List.dropWhile pyIsSpace u, [], by simp⟩
    · next hv2 =>
      exact ⟨List.dropWhile pyIsSpace u, List.rdropWhile pyIsSpace v, by simp [List.append_assoc]⟩

/-! ## Paragraph facts -/

/-- A paragraph as produced by the split: trimmed and non-empty. -/
def goodPara (q : List Char) : Prop := strip q = q ∧ q ≠ []

theorem paragraphs_good {text : List Char} :
    ∀ q ∈ paragraphs text, goodPara q := by
  intro q hq
  unfold paragraphs at hq
  rw [List.mem_filter] at hq
  obtain ⟨hmem, hne⟩ := hq
  obtain ⟨r, _, rfl⟩ := List.mem_map.mp hmem
  refine ⟨strip_idem r, ?_⟩
  simpa [List.isEmpty_iff] using hne

/-! ## Claim C1 — overlap seeding after a mid-stream flush -/

/-- C1 (counterexample): the claim fails as stated for `overlap = 5`.  On
`chunk_text "ab\n\ncd" 2 5` a mid-stream flush occurs (two chunks are
produced); the trailing `overlap/10 = 0` words of the flushed buffer form an
empty seed, so by the claim the new buffer should start from the paragraph
alone (`"cd"`), but the code's `words[-0:]` slice selects ALL words and the
second chunk is `"ab cd"`. -/
theorem C1_counterexample :
    chunk_text ['a', 'b', '\n', '\n', 'c', 'd'] 2 5 =
      [⟨0, ['a', 'b'], mkSource 0⟩, ⟨1, ['a', 'b', ' ', 'c', 'd'], mkSource 1⟩] ∧
    specSeed ['a', 'b'] (5 / 10) = [] ∧
    (['a', 'b', ' ', 'c', 'd'] : List Char) ≠ ['c', 'd'] := by decide

/-- C1 (amended): provided `overlap/10 ≥ 1`, every mid-stream flush of
`chunk_text`'s loop flushes the buffer as a chunk and seeds the next buffer
with exactly the trailing `overlap/10` words of the just-flushed buffer
(empty when the buffer has at most `overlap/10` words), and when that
overlap text is empty the new buffer starts from the paragraph alone.
(When `overlap/10 = 0` the code instead carries the whole buffer, because
Python's `words[-0:]` is the full list.) -/
theorem C1_overlap_seed (chunk_size overlap : Nat) (st : ChunkState) (paragraph : List Char)
    (hk : 1 ≤ overlap / 10)
    (hflush : chunk_size < st.current.length + paragraph.length ∧ st.current ≠ []) :
    (chunkStep chunk_size overlap st paragraph).chunks =
      st.chunks ++ [⟨st.nextId, strip st.current, mkSource st.nextId⟩] ∧
    (chunkStep chunk_size overlap st paragraph).current =
      (if specSeed st.current (overlap / 10) = [] then paragraph
       else specSeed st.current (overlap / 10) ++ [' '] ++ paragraph) := by
  have hk0 : overlap / 10 ≠ 0 := by omega
  unfold chunkStep specSeed pySliceLast
  rw [if_pos hflush]
  refine ⟨rfl, ?_⟩
  by_cases hlen : overlap / 10 < (strSplitWs st.current).length
  · simp only [hlen, if_pos, if_neg hk0]
    by_cases hemp :
        List.intercalate [' ']
          ((strSplitWs st.current).drop ((strSplitWs st.current).length - overlap / 10)) = []
    · simp [hemp]
    · simp [hemp]
  · simp [hlen]

/-- C1 (witness): the amended seeding law at a concrete mid-stream flush. -/
theorem C1_overlap_seed_witness :
    (1 ≤ 20 / 10 ∧
      2 < (['a', 'a', ' ', 'b', 'b', ' ', 'c', 'c'] : List Char).length +
        (['d', 'd'] : List Char).length ∧
      (['a', 'a', ' ', 'b', 'b', ' ', 'c', 'c'] : List Char) ≠ []) ∧
    ((chunkStep 2 20 ⟨[], ['a', 'a', ' ', 'b', 'b', ' ', 'c', 'c'], 0⟩ ['d', 'd']).chunks =
      [] ++ [⟨0, strip ['a', 'a', ' ', 'b', 'b', ' ', 'c', 'c'], mkSource 0⟩] ∧
     (chunkStep 2 20 ⟨[], ['a', 'a', ' ', 'b', 'b', ' ', 'c', 'c'], 0⟩ ['d', 'd']).current =
      (if specSeed ['a', 'a', ' ', 'b', 'b', ' ', 'c', 'c'] (20 / 10) = [] then ['d', 'd']
       else specSeed ['a', 'a', ' ', 'b', 'b', ' ', 'c', 'c'] (20 / 10) ++ [' '] ++ ['d', 'd'])) :=
  ⟨⟨by decide, by decide, by decide⟩,
    C1_overlap_seed 2 20 ⟨[], ['a', 'a', ' ', 'b', 'b', ' ', 'c', 'c'], 0⟩ ['d', 'd']
      (by decide) ⟨by decide, by decide⟩⟩

/-! ## Claim C5 — chunk ids dense and texts non-empty -/

/-- Invariant of the `chunk_text` loop state: ids already assigned are
`0..nextId-1` in order, flushed texts are non-empty after trimming, and the
running buffer is empty or contains a non-whitespace character. -/
def StInv (st : ChunkState) : Prop :=
  st.chunks.map Chunk.id = List.range st.nextId ∧
  st.nextId = st.chunks.length ∧
  (∀ c ∈ st.chunks, strip c.text ≠ []) ∧
  (st.current = [] ∨ ∃ c, c ∈ st.current ∧ ¬pyIsSpace c)

theorem chunkStep_inv (cs ov : Nat) {st : ChunkState} {p : List Char}
    (hp : goodPara p) (h : StInv st) : StInv (chunkStep cs ov st p) := by
  obtain ⟨hid, hlen, hne, hcur⟩ := h
  obtain ⟨c0, t0, hp0, hc0⟩ := head_not_space hp.1 hp.2
  have hc0p : c0 ∈ p := by rw [hp0]; exact List.mem_cons_self _ _
  by_cases hcond : cs < st.current.length + p.length ∧ st.current ≠ []
  · obtain ⟨c1, hc1, hc1n⟩ : ∃ c, c ∈ st.current ∧ ¬pyIsSpace c := by
      rcases hcur with h0 | h0
      · exact absurd h0 hcond.2
      · exact h0
    simp only [chunkStep, if_pos hcond]
    refine ⟨?_, ?_, ?_, ?_⟩
    · simp [hid, List.range_succ]
    · simp [hlen]
    · intro c hc
      rcases List.mem_append.mp hc with hcm | hcm
      · exact hne c hcm
      · have := List.mem_singleton.mp hcm
        subst this
        show strip (strip st.current) ≠ []
        rw [strip_idem]
        exact strip_ne_nil hc1 hc1n
    · right
      refine ⟨c0, ?_, hc0⟩
      dsimp only
      repeat' split
      all_goals
        first
          | exact List.mem_append_right _ hc0p
          | exact hc0p
  · simp only [chunkStep, if_neg hcond]
    refine ⟨hid, hlen, hne, ?_⟩
    right
    refine ⟨c0, ?_, hc0⟩
    dsimp only
    repeat' split
    all_goals
      first
        | exact List.mem_append_right _ hc0p
        | exact hc0p

theorem foldl_chunkStep_inv (cs ov : Nat) :
    ∀ (ps : List (List Char)) (st : ChunkState), (∀ q ∈ ps, goodPara q) → StInv st →
      StInv (ps.foldl (chunkStep cs ov) st)
  | [], _, _, h => h
  | q :: rest, _, hps, h =>
    foldl_chunkStep_inv cs ov rest _ (fun r hr => hps r (List.mem_cons_of_mem _ hr))
      (chunkStep_inv cs ov (hps q (List.mem_cons_self _ _)) h)

/-- C5: the chunk ids of `chunk_text` form the dense zero-based strictly
increasing sequence `0, 1, …` (chunk `k` has id `k`), and every chunk's text
is non-empty after trimming. -/
theorem C5_chunk_ids_dense (text : List Char) (chunk_size overlap : Nat) :
    (chunk_text text chunk_size overlap).map Chunk.id =
      List.range (chunk_text text chunk_size overlap).length ∧
    ∀ c ∈ chunk_text text chunk_size overlap, strip c.text ≠ [] := by
  have hinv := foldl_chunkStep_inv chunk_size overlap (paragraphs text) ⟨[], [], 0⟩
    (fun q hq => paragraphs_good q hq) ⟨rfl, rfl, by simp, Or.inl rfl⟩
  obtain ⟨hid, hlen, hne, hcur⟩ := hinv
  simp only [chunk_text]
  by_cases hc :
      ((paragraphs text).foldl (chunkStep chunk_size overlap) ⟨[], [], 0⟩).current ≠ []
  · rw [if_pos hc]
    obtain ⟨c1, hc1, hc1n⟩ :
        ∃ c, c ∈ ((paragraphs text).foldl (chunkStep chunk_size overlap) ⟨[], [], 0⟩).current ∧
          ¬pyIsSpace c := by
      rcases hcur with h0 | h0
      · exact absurd h0 hc
      · exact h0
    constructor
    · simp [hid, hlen, List.range_succ]
    · intro c hcm
      rcases List.mem_append.mp hcm with hcm | hcm
      · exact hne c hcm
      · have := List.mem_singleton.mp hcm
        subst this
        show strip (strip _) ≠ []
        rw [strip_idem]
        exact strip_ne_nil hc1 hc1n
  · rw [if_neg hc]
    exact ⟨by rw [hid, hlen], hne⟩

/-! ## Claim C6 — paragraphs are never split across chunks -/

/-- A paragraph is placed when it sits whole inside an already-flushed chunk
or inside the running buffer. -/
def Placed (st : ChunkState) (q : List Char) : Prop :=
  (∃ c ∈ st.chunks, q <:+: c.text) ∨ q <:+: st.current

theorem chunkStep_placed (cs ov : Nat) {st : ChunkState} {p q : List Char}
    (hq : goodPara q) (h : Placed st q) : Placed (chunkStep cs ov st p) q := by
  by_cases hcond : cs < st.current.length + p.length ∧ st.current ≠ []
  · simp only [chunkStep, if_pos hcond]
    rcases h with ⟨c, hc, hin⟩ | hin
    · exact Or.inl ⟨c, List.mem_append_left _ hc, hin⟩
    · refine Or.inl ⟨⟨st.nextId, strip st.current, mkSource st.nextId⟩,
        List.mem_append_right _ (List.mem_singleton_self _), ?_⟩
      exact infix_strip hq.1 hq.2 hin
  · simp only [chunkStep, if_neg hcond]
    rcases h with ⟨c, hc, hin⟩ | hin
    · exact Or.inl ⟨c, hc, hin⟩
    · right
      dsimp only
      split
      · have hpre : st.current <+: st.current ++ ['\n', '\n'] ++ p :=
          ⟨['\n', '\n'] ++ p, by simp [List.append_assoc]⟩
        exact hin.trans hpre.isInfix
      · next hcur =>
        obtain ⟨a, b, hab⟩ := hin
        have : st.current = [] := by
          by_contra hne
          exact hcur hne
        rw [this] at hab
        have hq0 : q = [] := by
          have := List.append_eq_nil.mp hab
          exact (List.append_eq_nil.mp this.1).2
        exact absurd hq0 hq.2

theorem chunkStep_placed_self (cs ov : Nat) (st : ChunkState) (p : List Char) :
    Placed (chunkStep cs ov st p) p := by
  right
  unfold chunkStep
  split
  · dsimp only
    repeat' split
    all_goals
      first
        | exact (List.suffix_append _ _).isInfix
        | exact (List.suffix_refl _).isInfix
  · dsimp only
    split
    · exact (List.suffix_append _ _).isInfix
    · exact (List.suffix_refl _).isInfix

theorem foldl_chunkStep_placed (cs ov : Nat) :
    ∀ (ps : List (List Char)) (st : ChunkState), (∀ r ∈ ps, goodPara r) →
      ∀ q, goodPara q → (Placed st q ∨ q ∈ ps) →
        Placed (ps.foldl (chunkStep cs ov) st) q
  | [], _, _, _, _, h => h.resolve_right (by simp)
  | p :: rest, st, hps, q, hq, h => by
    apply foldl_chunkStep_placed cs ov rest (chunkStep cs ov st p)
      (fun r hr => hps r (List.mem_cons_of_mem _ hr)) q hq
    rcases h with hpl | hmem
    · exact Or.inl (chunkStep_placed cs ov hq hpl)
    · rcases List.mem_cons.mp hmem with rfl | hmem'
      · exact Or.inl (chunkStep_placed_self cs ov st q)
      · exact Or.inr hmem'

/-- C6: when every blank-line-delimited paragraph is shorter than
`chunk_size`, no paragraph is split across chunks — each trimmed non-empty
paragraph appears whole, as a contiguous substring, in a chunk of
`chunk_text`.  (The proof never uses the length bound: the loop appends
paragraphs whole unconditionally.) -/
theorem C6_paragraph_whole (text : List Char) (chunk_size overlap : Nat)
    (_hshort : ∀ q ∈ paragraphs text, q.length < chunk_size) :
    ∀ q ∈ paragraphs text, ∃ c ∈ chunk_text text chunk_size overlap, q <:+: c.text := by
  intro q hq
  have hqg := paragraphs_good q hq
  have hplaced := foldl_chunkStep_placed chunk_size overlap (paragraphs text) ⟨[], [], 0⟩
    paragraphs_good q hqg (Or.inr hq)
  simp only [chunk_text]
  rcases hplaced with ⟨c, hc, hin⟩ | hin
  · by_cases hcur :
        ((paragraphs text).foldl (chunkStep chunk_size overlap) ⟨[], [], 0⟩).current ≠ []
    · rw [if_pos hcur]
      exact ⟨c, List.mem_append_left _ hc, hin⟩
    · rw [if_neg hcur]
      exact ⟨c, hc, hin⟩
  · by_cases hcur :
        ((paragraphs text).foldl (chunkStep chunk_size overlap) ⟨[], [], 0⟩).current ≠ []
    · rw [if_pos hcur]
      exact ⟨_, List.mem_append_right _ (List.mem_singleton_self _),
        infix_strip hqg.1 hqg.2 hin⟩
    · exfalso
      rw [not_not] at hcur
      rw [hcur] at hin
      obtain ⟨a, b, hab⟩ := hin
      have := List.append_eq_nil.mp hab
      exact hqg.2 (List.append_eq_nil.mp this.1).2

/-- C6 (witness): a concrete text whose paragraphs are all shorter than the
chunk size, with the conclusion instantiated at its first paragraph. -/
theorem C6_paragraph_whole_witness :
    (∀ q ∈ paragraphs ['a', 'b', '\n', '\n', 'c', 'd'], q.length < 100) ∧
    ∃ c ∈ chunk_text ['a', 'b', '\n', '\n', 'c', 'd'] 100 200,
      (['a', 'b'] : List Char) <:+: c.text :=
  ⟨by decide,
    C6_paragraph_whole ['a', 'b', '\n', '\n', 'c', 'd'] 100 200 (by decide)
      ['a', 'b'] (by decide)⟩

/-! ## Claim C7 — the fallback responder cites all retrieved chunk ids -/

theorem citeIds_infix_citedMsg (pre post : String) (cks : List Dict) :
    citeIds cks <:+: citedMsg pre cks post :=
  ⟨pre.toList, post.toList, rfl⟩

theorem infix_ite {m x y : List Char} {c : Prop} [Decidable c]
    (hx : m <:+: x) (hy : m <:+: y) : m <:+: (if c then x else y) := by
  split
  · exact hx
  · exact hy

/-- C7: in every branch of the deterministic fallback responder — all ten
keyword categories, their context sub-branches, and the default branch — the
returned string contains the comma-separated ids of all retrieved chunks, in
retrieval order. -/
theorem C7_fallback_cites_ids (question : List Char) (relevant_chunks : List Dict)
    (context : List Char) (_hne : relevant_chunks ≠ []) :
    citeIds relevant_chunks <:+:
      generate_intelligent_answer question relevant_chunks context := by
  unfold generate_intelligent_answer
  repeat
    first
      | exact citeIds_infix_citedMsg _ _ _
      | apply infix_ite

/-- C7 (witness): a concrete question and retrieved chunk. -/
theorem C7_fallback_cites_ids_witness :
    ([chunkToDict ⟨0, ['x'], mkSource 0⟩] : List Dict) ≠ [] ∧
    citeIds [chunkToDict ⟨0, ['x'], mkSource 0⟩] <:+:
      generate_intelligent_answer ['q'] [chunkToDict ⟨0, ['x'], mkSource 0⟩] ['z'] :=
  ⟨by decide,
    C7_fallback_cites_ids ['q'] [chunkToDict ⟨0, ['x'], mkSource 0⟩] ['z'] (by decide)⟩

/-! ## Claim C2 — empty retrieval short-circuits with the fixed answer -/

theorem retrieveAux_none (cks acc : List Dict) :
    ∀ rows : List (Option Nat × Int), (∀ r ∈ rows, r.1 = none) →
      retrieveAux cks acc rows = some acc
  | [], _ => rfl
  | row :: rest, h => by
    have hr : row.1 = none := h row (List.mem_cons_self _ _)
    simp only [retrieveAux, hr]
    exact retrieveAux_none cks acc rest (fun r hr => h r (List.mem_cons_of_mem _ hr))

/-- C2: a question whose retrieval yields zero chunks gets exactly the fixed
no-information answer, the answer synthesizer is not invoked (no `synth`
event), and nothing is contributed to `source_chunks`; within the question
loop it appends exactly that answer and leaves sources and events of the
remaining questions unchanged. -/
theorem C2_empty_retrieval (env : Env) (idx : Nat) (cks : List Dict) (q : List Char)
    (h : ∀ row ∈ env.search idx q 5, row.1 = none) :
    processQuestion env idx cks q = (.ok ⟨noRelMsg, []⟩, []) ∧
    ∀ qs as srcs ev, runQuestions env idx cks qs = (.ok (as, srcs), ev) →
      runQuestions env idx cks (q :: qs) = (.ok (noRelMsg :: as, srcs), ev) := by
  have hr : retrieve_relevant_chunks (env.search idx q 5) cks = some [] :=
    retrieveAux_none cks [] _ h
  have hpq : processQuestion env idx cks q = (.ok ⟨noRelMsg, []⟩, []) := by
    simp only [processQuestion, hr]
  refine ⟨hpq, ?_⟩
  intro qs as srcs ev hrun
  simp only [runQuestions, hpq, hrun, List.nil_append]

/-- C2 (witness): a concrete environment whose search returns only `-1`
positions. -/
theorem C2_empty_retrieval_witness :
    (∀ row ∈ [((none : Option Nat), (0 : Int)), (none, 3)], row.1 = none) ∧
    processQuestion
      { md5 := fun _ => "k", download := fun _ => .ok [], extract := fun b => .ok b,
        embed := fun _ => .ok [], buildIndex := fun _ => 0,
        search := fun _ _ _ => [(none, 0), (none, 3)], answerFn := fun _ _ => ['a'] }
      0 [] ['q'] = (.ok ⟨noRelMsg, []⟩, []) :=
  ⟨by decide,
    (C2_empty_retrieval
      { md5 := fun _ => "k", download := fun _ => .ok [], extract := fun b => .ok b,
        embed := fun _ => .ok [], buildIndex := fun _ => 0,
        search := fun _ _ _ => [(none, 0), (none, 3)], answerFn := fun _ _ => ['a'] }
      0 [] ['q'] (by decide)).1⟩

/-! ## Claim C4 — empty extracted text aborts before chunk/embedding work -/

/-- C4: when the document is not cached and the extractor returns
empty-or-whitespace text, the whole call fails with the 400 `HTTPException`
"No text found in PDF", before any chunking, embedding or index work (the
event log stops at extraction), no answer is produced (the result is the
error), and the caches are exactly as before the call. -/
theorem C4_empty_text_aborts (env : Env) (st : SysState) (url : String)
    (qs : List (List Char)) (bs text : List Char)
    (hmiss : alookup st.document_cache (env.md5 url) = none)
    (hdl : env.download url = .ok bs)
    (hex : env.extract bs = .ok text)
    (hws : strip text = []) :
    process_insurance_query env st url qs =
      (.error ⟨400, "No text found in PDF".toList⟩, st, [.download, .extracted]) := by
  have hing : ingestIfNeeded env st (env.md5 url) url =
      (.error ⟨400, "No text found in PDF".toList⟩, st, [.download, .extracted]) := by
    simp only [ingestIfNeeded, hmiss, hdl, hex, hws, if_pos]
  simp only [process_insurance_query, hing]

/-- C4 (witness): whitespace-only extracted text on a cold cache. -/
theorem C4_empty_text_aborts_witness :
    (alookup (SysState.mk [] []).document_cache "u" = none ∧
      strip [' ', '\t'] = []) ∧
    process_insurance_query
      { md5 := fun u => u, download := fun _ => .ok ['b'], extract := fun _ => .ok [' ', '\t'],
        embed := fun _ => .ok [], buildIndex := fun _ => 0,
        search := fun _ _ _ => [], answerFn := fun _ _ => ['a'] }
      ⟨[], []⟩ "u" [['q']] =
      (.error ⟨400, "No text found in PDF".toList⟩, ⟨[], []⟩, [.download, .extracted]) :=
  ⟨⟨rfl, by decide⟩,
    C4_empty_text_aborts
      { md5 := fun u => u, download := fun _ => .ok ['b'], extract := fun _ => .ok [' ', '\t'],
        embed := fun _ => .ok [], buildIndex := fun _ => 0,
        search := fun _ _ _ => [], answerFn := fun _ _ => ['a'] }
      ⟨[], []⟩ "u" [['q']] ['b'] [' ', '\t'] rfl rfl rfl (by decide)⟩

/-! ## Claim C3 — a second call with the same URL re-ingests nothing -/

theorem processQuestion_ev (env : Env) (idx : Nat) (cks : List Dict) (q : List Char) :
    ∀ e ∈ (processQuestion env idx cks q).2, e = Ev.synth q := by
  intro e he
  unfold processQuestion at he
  split at he
  · exact absurd he (List.not_mem_nil e)
  · exact absurd he (List.not_mem_nil e)
  · exact List.mem_singleton.mp he

theorem runQuestions_ev (env : Env) (idx : Nat) (cks : List Dict) :
    ∀ (qs : List (List Char)), ∀ e ∈ (runQuestions env idx cks qs).2, ∃ q, e = Ev.synth q
  | [], e, he => by simp only [runQuestions] at he; exact absurd he (List.not_mem_nil e)
  | q :: rest, e, he => by
    unfold runQuestions at he
    split at he
    · next ev heq =>
      refine ⟨q, processQuestion_ev env idx cks q e ?_⟩
      rw [heq]
      exact he
    · next r ev heq =>
      split at he
      · next e2 ev2 heq2 =>
        rcases List.mem_append.mp he with hl | hr
        · refine ⟨q, processQuestion_ev env idx cks q e ?_⟩
          rw [heq]
          exact hl
        · refine runQuestions_ev env idx cks rest e ?_
          rw [heq2]
          exact hr
      · next as srcs ev2 heq2 =>
        rcases List.mem_append.mp he with hl | hr
        · refine ⟨q, processQuestion_ev env idx cks q e ?_⟩
          rw [heq]
          exact hl
        · refine runQuestions_ev env idx cks rest e ?_
          rw [heq2]
          exact hr

theorem ingest_hit (env : Env) (st : SysState) (h url : String) (e : DocEntry)
    (hhit : alookup st.document_cache h = some e) :
    ingestIfNeeded env st h url = (.ok (), st, []) := by
  simp only [ingestIfNeeded, hhit]

/-- On a cache hit, a call leaves both caches untouched and emits only
synthesizer events. -/
theorem process_hit_shape (env : Env) (st : SysState) (url : String)
    (qs : List (List Char)) (e : DocEntry)
    (hhit : alookup st.document_cache (env.md5 url) = some e) :
    (process_insurance_query env st url qs).2.1 = st ∧
    ∀ ev ∈ (process_insurance_query env st url qs).2.2, ∃ q, ev = Ev.synth q := by
  have hing := ingest_hit env st (env.md5 url) url e hhit
  simp only [process_insurance_query]
  rw [hing]
  dsimp only
  rw [hhit]
  cases hvec : alookup st.vector_store_cache (env.md5 url) with
  | none =>
    dsimp only
    exact ⟨rfl, by intro ev hev; exact absurd hev (List.not_mem_nil ev)⟩
  | some idx =>
    dsimp only
    rcases hrun : runQuestions env idx e.chunks qs with ⟨res, ev2⟩
    cases res with
    | error e2 =>
      dsimp only
      refine ⟨rfl, ?_⟩
      intro ev hev
      rw [List.nil_append] at hev
      refine runQuestions_ev env idx e.chunks qs ev ?_
      rw [hrun]
      exact hev
    | ok p =>
      rcases p with ⟨as, srcs⟩
      dsimp only
      refine ⟨rfl, ?_⟩
      intro ev hev
      rw [List.nil_append] at hev
      refine runQuestions_ev env idx e.chunks qs ev ?_
      rw [hrun]
      exact hev

/-- A successful call leaves the document cached under the URL hash. -/
theorem process_ok_cached (env : Env) (st : SysState) (url : String)
    (qs : List (List Char)) (r : Response) (st1 : SysState) (ev : List Ev)
    (h : process_insurance_query env st url qs = (.ok r, st1, ev)) :
    ∃ e, alookup st1.document_cache (env.md5 url) = some e := by
  simp only [process_insurance_query] at h
  rcases hing : ingestIfNeeded env st (env.md5 url) url with ⟨res, st2, ev2⟩
  rw [hing] at h
  cases res with
  | error e2 => exact absurd (congrArg Prod.fst h) (by simp)
  | ok u =>
    dsimp only at h
    cases hdoc : alookup st2.document_cache (env.md5 url) with
    | none => rw [hdoc] at h; exact absurd (congrArg Prod.fst h) (by simp)
    | some entry =>
      rw [hdoc] at h
      cases hvec : alookup st2.vector_store_cache (env.md5 url) with
      | none => rw [hvec] at h; exact absurd (congrArg Prod.fst h) (by simp)
      | some idx =>
        rw [hvec] at h
        dsimp only at h
        rcases hrun : runQuestions env idx entry.chunks qs with ⟨res2, ev3⟩
        rw [hrun] at h
        cases res2 with
        | error e2 => exact absurd (congrArg Prod.fst h) (by simp)
        | ok p =>
          rcases p with ⟨as, srcs⟩
          dsimp only at h
          have hst : st2 = st1 := congrArg (fun t => t.2.1) h
          rw [← hst]
          exact ⟨entry, hdoc⟩

theorem ingest_ev_cases (env : Env) (st : SysState) (h url : String) :
    (ingestIfNeeded env st h url).2.2 = [] ∨
    (ingestIfNeeded env st h url).2.2 = [.download] ∨
    (ingestIfNeeded env st h url).2.2 = [.download, .extracted] ∨
    (ingestIfNeeded env st h url).2.2 = [.download, .extracted, .chunked] ∨
    (ingestIfNeeded env st h url).2.2 = [.download, .extracted, .chunked, .embedded] ∨
    (ingestIfNeeded env st h url).2.2 = [.download, .extracted, .chunked, .embedded, .indexed] := by
  simp only [ingestIfNeeded]
  split
  · simp
  · split
    · simp
    · split
      · simp
      · split
        · simp
        · split
          · simp
          · split
            · simp
            · simp

theorem process_ev_decomp (env : Env) (st : SysState) (url : String)
    (qs : List (List Char)) :
    ∃ tail, (process_insurance_query env st url qs).2.2 =
      (ingestIfNeeded env st (env.md5 url) url).2.2 ++ tail ∧
      ∀ e ∈ tail, ∃ q, e = Ev.synth q := by
  simp only [process_insurance_query]
  rcases hing : ingestIfNeeded env st (env.md5 url) url with ⟨res, st2, ev2⟩
  cases res with
  | error e2 =>
    dsimp only
    exact ⟨[], by simp⟩
  | ok u =>
    dsimp only
    cases hdoc : alookup st2.document_cache (env.md5 url) with
    | none =>
      dsimp only
      exact ⟨[], by simp⟩
    | some entry =>
      cases hvec : alookup st2.vector_store_cache (env.md5 url) with
      | none =>
        dsimp only
        exact ⟨[], by simp⟩
      | some idx =>
        dsimp only
        rcases hrun : runQuestions env idx entry.chunks qs with ⟨res2, ev3⟩
        cases res2 with
        | error e3 =>
          dsimp only
          refine ⟨ev3, rfl, ?_⟩
          intro e he
          refine runQuestions_ev env idx entry.chunks qs e ?_
          rw [hrun]
          exact he
        | ok p =>
          rcases p with ⟨as, srcs⟩
          dsimp only
          refine ⟨ev3, rfl, ?_⟩
          intro e he
          refine runQuestions_ev env idx entry.chunks qs e ?_
          rw [hrun]
          exact he

theorem process_count_le_one (env : Env) (st : SysState) (url : String)
    (qs : List (List Char)) (k : Ev)
    (hk : k = .download ∨ k = .extracted ∨ k = .chunked ∨ k = .embedded ∨ k = .indexed) :
    ((process_insurance_query env st url qs).2.2).count k ≤ 1 := by
  obtain ⟨tail, hdec, hsynth⟩ := process_ev_decomp env st url qs
  rw [hdec, List.count_append]
  have htail : tail.count k = 0 := by
    rw [List.count_eq_zero]
    intro hmem
    obtain ⟨q, hq⟩ := hsynth k hmem
    rcases hk with rfl | rfl | rfl | rfl | rfl <;> exact Ev.noConfusion hq
  rw [htail]
  have hing := ingest_ev_cases env st (env.md5 url) url
  rcases hing with he | he | he | he | he | he <;> rw [he] <;>
    rcases hk with rfl | rfl | rfl | rfl | rfl <;> simp

/-- C3: after a successful call for a URL, a second sequential call with the
same URL performs no re-ingestion — its event log has no download,
extraction, chunking, embedding or index-building events (only synthesizer
invocations), it leaves the caches exactly as the first call left them, and
across the two calls each ingestion step has executed at most once for that
document identity. -/
theorem C3_no_reingestion (env : Env) (st : SysState) (url : String)
    (qs1 qs2 : List (List Char)) (r1 : Response) (st1 : SysState) (ev1 : List Ev)
    (h1 : process_insurance_query env st url qs1 = (.ok r1, st1, ev1)) :
    (∀ e ∈ (process_insurance_query env st1 url qs2).2.2, ∃ q, e = Ev.synth q) ∧
    (process_insurance_query env st1 url qs2).2.1 = st1 ∧
    ev1.count Ev.download ≤ 1 ∧ ev1.count Ev.extracted ≤ 1 ∧
    ev1.count Ev.chunked ≤ 1 ∧ ev1.count Ev.embedded ≤ 1 ∧
    ev1.count Ev.indexed ≤ 1 := by
  obtain ⟨e, he⟩ := process_ok_cached env st url qs1 r1 st1 ev1 h1
  have hshape := process_hit_shape env st1 url qs2 e he
  have hev1 : ev1 = (process_insurance_query env st url qs1).2.2 := by rw [h1]
  refine ⟨hshape.2, hshape.1, ?_, ?_, ?_, ?_, ?_⟩ <;> rw [hev1]
  · exact process_count_le_one env st url qs1 Ev.download (by tauto)
  · exact process_count_le_one env st url qs1 Ev.extracted (by tauto)
  · exact process_count_le_one env st url qs1 Ev.chunked (by tauto)
  · exact process_count_le_one env st url qs1 Ev.embedded (by tauto)
  · exact process_count_le_one env st url qs1 Ev.indexed (by tauto)

/-- Concrete environment for the C3 witness: one tiny document, search always
returns no rows. -/
def envC3 : Env :=
  { md5 := fun _ => "k", download := fun _ => .ok ['b'],
    extract := fun _ => .ok ['a', 'b'], embed := fun _ => .ok [[1]],
    buildIndex := fun _ => 7, search := fun _ _ _ => [],
    answerFn := fun _ _ => ['a'] }

/-- The state after `envC3` ingests its document. -/
def stC3 : SysState :=
  ⟨[("k", ⟨[chunkToDict ⟨0, ['a', 'b'], mkSource 0⟩], ['a', 'b']⟩)], [("k", 7)]⟩

/-- C3 (witness): a concrete successful first call, instantiating the
no-reingestion conclusion for the second. -/
theorem C3_no_reingestion_witness :
    process_insurance_query envC3 ⟨[], []⟩ "u" [['q']] =
      (.ok ⟨[noRelMsg], []⟩, stC3,
        [.download, .extracted, .chunked, .embedded, .indexed]) ∧
    ((∀ e ∈ (process_insurance_query envC3 stC3 "u" [['r']]).2.2, ∃ q, e = Ev.synth q) ∧
     (process_insurance_query envC3 stC3 "u" [['r']]).2.1 = stC3 ∧
     List.count Ev.download [Ev.download, Ev.extracted, Ev.chunked, Ev.embedded, Ev.indexed] ≤ 1 ∧
     List.count Ev.extracted [Ev.download, Ev.extracted, Ev.chunked, Ev.embedded, Ev.indexed] ≤ 1 ∧
     List.count Ev.chunked [Ev.download, Ev.extracted, Ev.chunked, Ev.embedded, Ev.indexed] ≤ 1 ∧
     List.count Ev.embedded [Ev.download, Ev.extracted, Ev.chunked, Ev.embedded, Ev.indexed] ≤ 1 ∧
     List.count Ev.indexed [Ev.download, Ev.extracted, Ev.chunked, Ev.embedded, Ev.indexed] ≤ 1) :=
  ⟨by rfl,
    C3_no_reingestion envC3 ⟨[], []⟩ "u" [['q']] [['r']] ⟨[noRelMsg], []⟩ stC3
      [.download, .extracted, .chunked, .embedded, .indexed] (by rfl)⟩

/-! ## Claim C9 — one answer per question, in question order -/

theorem runQuestions_ok (env : Env) (idx : Nat) (cks : List Dict) :
    ∀ (qs : List (List Char)) (as : List (List Char)) (srcs : List Dict) (ev : List Ev),
      runQuestions env idx cks qs = (.ok (as, srcs), ev) →
      as.length = qs.length ∧
      ∀ i (hi : i < qs.length) (hi2 : i < as.length),
        ∃ res evq, processQuestion env idx cks (qs.get ⟨i, hi⟩) = (.ok res, evq) ∧
          as.get ⟨i, hi2⟩ = res.answer
  | [], as, srcs, ev, h => by
    simp only [runQuestions, Prod.mk.injEq] at h
    obtain ⟨h1, _⟩ := h
    obtain ⟨h2, _⟩ := Except.ok.inj h1 |> Prod.mk.inj
    subst h2
    exact ⟨rfl, fun i hi => absurd hi (Nat.not_lt_zero i)⟩
  | q :: rest, as, srcs, ev, h => by
    unfold runQuestions at h
    split at h
    · exact absurd (congrArg Prod.fst h) (by simp)
    · next r ev1 heq =>
      split at h
      · exact absurd (congrArg Prod.fst h) (by simp)
      · next as2 srcs2 ev2 heq2 =>
        simp only [Prod.mk.injEq, Except.ok.injEq] at h
        obtain ⟨⟨ha, _⟩, _⟩ := h
        subst ha
        obtain ⟨hlen, hidx⟩ := runQuestions_ok env idx cks rest as2 srcs2 ev2 heq2
        refine ⟨by simp [hlen], ?_⟩
        intro i hi hi2
        cases i with
        | zero => exact ⟨r, ev1, heq, rfl⟩
        | succ j =>
          have hj : j < rest.length := by
            simpa using hi
          have hj2 : j < as2.length := by
            simpa using hi2
          obtain ⟨res, evq, hres, hval⟩ := hidx j hj hj2
          exact ⟨res, evq, by simpa using hres, by simpa using hval⟩

/-- C9: a successful call returns exactly one answer per question, and the
i-th answer is the one the per-question pipeline produces for the i-th
question of the request. -/
theorem C9_answers_in_order (env : Env) (st : SysState) (url : String)
    (qs : List (List Char)) (r : Response) (st1 : SysState) (ev : List Ev)
    (h : process_insurance_query env st url qs = (.ok r, st1, ev)) :
    r.answers.length = qs.length ∧
    ∃ entry idx, alookup st1.document_cache (env.md5 url) = some entry ∧
      alookup st1.vector_store_cache (env.md5 url) = some idx ∧
      ∀ i (hi : i < qs.length) (hi2 : i < r.answers.length),
        ∃ res evq, processQuestion env idx entry.chunks (qs.get ⟨i, hi⟩) = (.ok res, evq) ∧
          r.answers.get ⟨i, hi2⟩ = res.answer := by
  simp only [process_insurance_query] at h
  rcases hing : ingestIfNeeded env st (env.md5 url) url with ⟨res, st2, ev2⟩
  rw [hing] at h
  cases res with
  | error e2 => exact absurd (congrArg Prod.fst h) (by simp)
  | ok u =>
    dsimp only at h
    cases hdoc : alookup st2.document_cache (env.md5 url) with
    | none => rw [hdoc] at h; exact absurd (congrArg Prod.fst h) (by simp)
    | some entry =>
      rw [hdoc] at h
      cases hvec : alookup st2.vector_store_cache (env.md5 url) with
      | none => rw [hvec] at h; exact absurd (congrArg Prod.fst h) (by simp)
      | some idx =>
        rw [hvec] at h
        dsimp only at h
        rcases hrun : runQuestions env idx entry.chunks qs with ⟨res2, ev3⟩
        rw [hrun] at h
        cases res2 with
        | error e3 => exact absurd (congrArg Prod.fst h) (by simp)
        | ok p =>
          rcases p with ⟨as, srcs⟩
          dsimp only at h
          simp only [Prod.mk.injEq, Except.ok.injEq] at h
          obtain ⟨hr, hst, _⟩ := h
          obtain ⟨hlen, hidx⟩ := runQuestions_ok env idx entry.chunks qs as srcs ev3 hrun
          subst hst
          subst hr
          refine ⟨hlen, entry, idx, hdoc, hvec, ?_⟩
          intro i hi hi2
          obtain ⟨resq, evq, hres, hval⟩ := hidx i hi hi2
          exact ⟨resq, evq, hres, hval⟩

/-- C9 (witness): a successful concrete call with two questions. -/
theorem C9_answers_in_order_witness :
    process_insurance_query envC3 stC3 "u" [['q'], ['r']] =
      (.ok ⟨[noRelMsg, noRelMsg], []⟩, stC3, []) ∧
    ((⟨[noRelMsg, noRelMsg], []⟩ : Response).answers.length = [['q'], ['r']].length ∧
     ∃ entry idx, alookup stC3.document_cache (envC3.md5 "u") = some entry ∧
       alookup stC3.vector_store_cache (envC3.md5 "u") = some idx ∧
       ∀ i (hi : i < [['q'], ['r']].length)
         (hi2 : i < (⟨[noRelMsg, noRelMsg], []⟩ : Response).answers.length),
         ∃ res evq,
           processQuestion envC3 idx entry.chunks ([['q'], ['r']].get ⟨i, hi⟩) =
             (.ok res, evq) ∧
           (⟨[noRelMsg, noRelMsg], []⟩ : Response).answers.get ⟨i, hi2⟩ = res.answer) :=
  ⟨by rfl,
    C9_answers_in_order envC3 stC3 "u" [['q'], ['r']] ⟨[noRelMsg, noRelMsg], []⟩ stC3 []
      (by rfl)⟩

/-! ## Claim C10 — both caches always hold the same keys -/

/-- The two module-level caches hold exactly the same keys, in the same
insertion order. -/
def keysAligned (st : SysState) : Prop :=
  st.document_cache.map Prod.fst = st.vector_store_cache.map Prod.fst

theorem ingest_keysAligned (env : Env) (st : SysState) (h url : String)
    (ha : keysAligned st) : keysAligned (ingestIfNeeded env st h url).2.1 := by
  simp only [ingestIfNeeded]
  split
  · exact ha
  · split
    · exact ha
    · split
      · exact ha
      · split
        · exact ha
        · split
          · exact ha
          · split
            · exact ha
            · simp only [keysAligned, List.map_append] at ha ⊢
              rw [ha]
              simp

theorem process_state_eq (env : Env) (st : SysState) (url : String)
    (qs : List (List Char)) :
    (process_insurance_query env st url qs).2.1 =
      (ingestIfNeeded env st (env.md5 url) url).2.1 := by
  simp only [process_insurance_query]
  rcases hing : ingestIfNeeded env st (env.md5 url) url with ⟨res, st2, ev2⟩
  cases res with
  | error e2 => rfl
  | ok u =>
    dsimp only
    cases alookup st2.document_cache (env.md5 url) with
    | none => rfl
    | some entry =>
      cases alookup st2.vector_store_cache (env.md5 url) with
      | none => rfl
      | some idx =>
        dsimp only
        rcases runQuestions env idx entry.chunks qs with ⟨res2, ev3⟩
        cases res2 with
        | error e3 => rfl
        | ok p => rcases p with ⟨as, srcs⟩; rfl

/-- C10: every completed call preserves the invariant that `document_cache`
and `vector_store_cache` hold exactly the same keys, so the stats endpoint
reports `documents_cached = vector_stores_cached`; clear empties both, after
which both counts are zero. -/
theorem C10_cache_keys_aligned (env : Env) (st : SysState) (url : String)
    (qs : List (List Char)) (ha : keysAligned st) :
    keysAligned (process_insurance_query env st url qs).2.1 ∧
    (cache_stats (process_insurance_query env st url qs).2.1).1 =
      (cache_stats (process_insurance_query env st url qs).2.1).2 ∧
    keysAligned (clear_cache st) ∧ cache_stats (clear_cache st) = (0, 0) := by
  have hal : keysAligned (process_insurance_query env st url qs).2.1 := by
    rw [process_state_eq]
    exact ingest_keysAligned env st (env.md5 url) url ha
  refine ⟨hal, ?_, rfl, rfl⟩
  have hlen := congrArg List.length hal
  simpa [cache_stats] using hlen

/-- C10 (witness): empty caches, one ingesting call. -/
theorem C10_cache_keys_aligned_witness :
    keysAligned ⟨[], []⟩ ∧
    (keysAligned (process_insurance_query envC3 ⟨[], []⟩ "u" [['q']]).2.1 ∧
     (cache_stats (process_insurance_query envC3 ⟨[], []⟩ "u" [['q']]).2.1).1 =
       (cache_stats (process_insurance_query envC3 ⟨[], []⟩ "u" [['q']]).2.1).2 ∧
     keysAligned (clear_cache ⟨[], []⟩) ∧ cache_stats (clear_cache ⟨[], []⟩) = (0, 0)) :=
  ⟨rfl, C10_cache_keys_aligned envC3 ⟨[], []⟩ "u" [['q']] rfl⟩

/-! ## Claim C8 — question processing never mutates the cached dicts -/

theorem take_set_of_le :
    ∀ (h : Heap) (a n : Nat) (d : Dict), n ≤ a → (h.set a d).take n = h.take n
  | [], _, _, _, _ => rfl
  | _ :: _, 0, n, d, hle => by
    have hn : n = 0 := Nat.le_zero.mp hle
    subst hn
    rfl
  | _ :: _, _ + 1, 0, _, _ => rfl
  | x :: t, a + 1, n + 1, d, hle => by
    show (x :: t.set a d).take (n + 1) = (x :: t).take (n + 1)
    simp only [List.take_succ_cons]
    rw [take_set_of_le t a n d (Nat.le_of_succ_le_succ hle)]

theorem retrieveHeapAux_frame (addrs : List Nat) :
    ∀ (rows : List (Option Nat × Int)) (acc h2 : Heap × List Nat),
      retrieveHeapAux addrs acc rows = some h2 →
      acc.1 <+: h2.1 ∧ ∀ a ∈ h2.2, a ∈ acc.2 ∨ acc.1.length ≤ a
  | [], acc, h2, h => by
    simp only [retrieveHeapAux, Option.some.injEq] at h
    subst h
    exact ⟨List.prefix_refl _, fun a ha => Or.inl ha⟩
  | row :: rest, acc, h2, h => by
    unfold retrieveHeapAux at h
    split at h
    · exact retrieveHeapAux_frame addrs rest acc h2 h
    · split at h
      · exact absurd h (by simp)
      · next a2 heqa =>
        obtain ⟨hpre, hmem⟩ := retrieveHeapAux_frame addrs rest _ h2 h
        refine ⟨(List.prefix_append acc.1 _).trans hpre, ?_⟩
        intro a3 ha3
        rcases hmem a3 ha3 with hin | hge
        · rcases List.mem_append.mp hin with h1 | h1
          · exact Or.inl h1
          · right
            have : a3 = acc.1.length := List.mem_singleton.mp h1
            omega
        · right
          simp only [List.length_append, List.length_cons, List.length_nil] at hge
          omega

theorem cleanupHeap_take (n : Nat) :
    ∀ (raddrs : List Nat) (h : Heap), (∀ a ∈ raddrs, n ≤ a) →
      (cleanupHeap h raddrs).take n = h.take n
  | [], _, _ => rfl
  | a :: rest, h, hge => by
    show (cleanupHeap (h.set a (cleanupDict (hget h a))) rest).take n = h.take n
    rw [cleanupHeap_take n rest _ (fun a2 ha2 => hge a2 (List.mem_cons_of_mem _ ha2))]
    exact take_set_of_le h a n _ (hge a (List.mem_cons_self _ _))

theorem questionHeap_frame (env : Env) (idx : Nat) (addrs : List Nat) (h : Heap)
    (q : List Char) (h2 : Heap) (hq : questionHeap env idx addrs h q = some h2) :
    h <+: h2 := by
  unfold questionHeap at hq
  split at hq
  · exact absurd hq (by simp)
  · next hr raddrs heq =>
    obtain ⟨hpre, hmem⟩ :=
      retrieveHeapAux_frame addrs (env.search idx q 5) (h, []) (hr, raddrs) heq
    split at hq
    · next hnil =>
      have := Option.some.inj hq
      subst this
      exact hpre
    · next hnil =>
      have := Option.some.inj hq
      subst this
      have hge : ∀ a ∈ raddrs, h.length ≤ a := by
        intro a ha
        rcases hmem a ha with hfalse | hok
        · exact absurd hfalse (List.not_mem_nil a)
        · exact hok
      rw [List.prefix_iff_eq_take] at hpre ⊢
      rw [cleanupHeap_take h.length raddrs hr hge]
      exact hpre

theorem questionsHeap_frame (env : Env) (idx : Nat) (addrs : List Nat) :
    ∀ (qs : List (List Char)) (h0 h1 : Heap),
      questionsHeap env idx addrs h0 qs = some h1 → h0 <+: h1
  | [], h0, h1, h => by
    simp only [questionsHeap, Option.some.injEq] at h
    subst h
    exact List.prefix_refl _
  | q :: rest, h0, h1, h => by
    unfold questionsHeap at h
    split at h
    · exact absurd h (by simp)
    · next h2 heq =>
      exact (questionHeap_frame env idx addrs h0 q h2 heq).trans
        (questionsHeap_frame env idx addrs rest h2 h1 h)

/-- C8: on a cache hit, the question loop's per-question score annotation and
serialization cleanup write only through the freshly copied dicts — the
cached chunk dicts (all pre-existing heap cells) are bit-for-bit unchanged
when the loop finishes, so the stored cache entry is returned unmutated. -/
theorem C8_cached_dicts_unchanged (env : Env) (idx : Nat) (addrs : List Nat)
    (qs : List (List Char)) (h0 h1 : Heap)
    (hrun : questionsHeap env idx addrs h0 qs = some h1) :
    h0 <+: h1 ∧ ∀ a, a < h0.length → hget h1 a = hget h0 a := by
  have hpre := questionsHeap_frame env idx addrs qs h0 h1 hrun
  refine ⟨hpre, ?_⟩
  intro a ha
  obtain ⟨t, rfl⟩ := hpre
  unfold hget
  exact List.getD_append h0 t [] a ha

/-- C8 (witness): one question, one copied-and-annotated chunk; the cached
cell at address 0 is unchanged. -/
theorem C8_cached_dicts_unchanged_witness :
    questionsHeap
      { md5 := fun _ => "k", download := fun _ => .ok [], extract := fun b => .ok b,
        embed := fun _ => .ok [], buildIndex := fun _ => 0,
        search := fun _ _ _ => [(some 0, 2)], answerFn := fun _ _ => ['a'] }
      0 [0] [[("id", Val.int 5)]] [['q']] =
      some [[("id", Val.int 5)], [("id", Val.int 5), ("score", Val.int 2)]] ∧
    ([[("id", Val.int 5)]] : Heap) <+:
      [[("id", Val.int 5)], [("id", Val.int 5), ("score", Val.int 2)]] ∧
    ∀ a, a < ([[("id", Val.int 5)]] : Heap).length →
      hget [[("id", Val.int 5)], [("id", Val.int 5), ("score", Val.int 2)]] a =
        hget [[("id", Val.int 5)]] a :=
  ⟨by rfl,
    C8_cached_dicts_unchanged
      { md5 := fun _ => "k", download := fun _ => .ok [], extract := fun b => .ok b,
        embed := fun _ => .ok [], buildIndex := fun _ => 0,
        search := fun _ _ _ => [(some 0, 2)], answerFn := fun _ _ => ['a'] }
      0 [0] [['q']] [[("id", Val.int 5)]]
      [[("id", Val.int 5)], [("id", Val.int 5), ("score", Val.int 2)]] (by rfl)⟩

end PolicyGenius
